import Mathlib

/-!
Verification of the tsserver subprocess protocol client
(src/tsserver/client.ts): the message framer (handleData), the request
correlator (handleMessage), the retry policy (requestWithRetry),
per-command timeouts, the open-file session tracker (openFile/closeFile),
the process-exit handler and shutdown (stop).

Strings are modelled as lists of characters; the framer's header regex
is modelled as a deterministic anchored matcher, which coincides with
the JavaScript regex on this pattern because the pattern has no real
backtracking (the digit run is followed by a mandatory non-digit).
-/

namespace TsMcp

/-- A decimal digit character, as matched by the regex class backslash-d. -/
def isDigitCh (c : Char) : Bool := decide ('0' ≤ c) && decide (c ≤ '9')

/-- The literal header text the framer regex requires at buffer start. -/
def headerLit : List Char := ("Content-Length: ").toList

/-- Anchored literal match: does the buffer begin with the given literal? -/
def leadsWith : List Char → List Char → Bool
  | [], _ => true
  | _ :: _, [] => false
  | x :: xs, y :: ys => x == y && leadsWith xs ys

/-- Greedy digit run at the head of the buffer, returning the run and the rest. -/
def takeDigits : List Char → List Char × List Char
  | [] => ([], [])
  | c :: cs =>
    if isDigitCh c then
      let r := takeDigits cs
      (c :: r.1, r.2)
    else ([], c :: cs)

/-- Decimal value of a digit string, as computed by parseInt(s, 10). -/
def digitsVal (ds : List Char) : Nat :=
  ds.foldl (fun a c => 10 * a + (c.toNat - 48)) 0

/-- Matcher for the regex fragment backslash-r? backslash-n: number of
characters consumed, or none when it cannot match at the head. The
greedy optional carriage return commits when present; backtracking
cannot help since a carriage return never equals a newline. -/
def matchSep (r : List Char) : Option Nat :=
  match r with
  | [] => none
  | c :: cs =>
    if c = '\r' then
      match cs with
      | [] => none
      | d :: _ => if d = '\n' then some 2 else none
    else if c = '\n' then some 1 else none

/-- The framer's anchored header match: on success, the declared content
length and the total header length (characters to skip past the header). -/
def parseHeader (b : List Char) : Option (Nat × Nat) :=
  if leadsWith headerLit b then
    match takeDigits (b.drop headerLit.length) with
    | ([], _) => none
    | (d :: ds, rest2) =>
      match matchSep rest2 with
      | none => none
      | some k1 =>
        match matchSep (rest2.drop k1) with
        | none => none
        | some k2 =>
          some (digitsVal (d :: ds), headerLit.length + (d :: ds).length + k1 + k2)
  else none

/-- Decimal digit character for a value below ten. -/
def digitCh (d : Nat) : Char :=
  match d with
  | 0 => '0'
  | 1 => '1'
  | 2 => '2'
  | 3 => '3'
  | 4 => '4'
  | 5 => '5'
  | 6 => '6'
  | 7 => '7'
  | 8 => '8'
  | _ => '9'

/-- Decimal representation of a natural number, most significant digit first. -/
def toDecChars (n : Nat) : List Char :=
  if h : n < 10 then [digitCh n]
  else toDecChars (n / 10) ++ [digitCh (n % 10)]
termination_by n
decreasing_by
  have : 10 ≤ n := Nat.le_of_not_lt h
  exact Nat.div_lt_self (by omega) (by omega)

/-- Substring test, modelling JavaScript String.includes. -/
def hasSubstr (needle : List Char) : List Char → Bool
  | [] => leadsWith needle []
  | c :: cs => leadsWith needle (c :: cs) || hasSubstr needle cs

theorem leadsWith_append {p b : List Char} (h : leadsWith p b = true) (e : List Char) :
    leadsWith p (b ++ e) = true := by
  induction p generalizing b with
  | nil => rfl
  | cons x xs ih =>
    cases b with
    | nil => simp [leadsWith] at h
    | cons y ys =>
      simp only [leadsWith, Bool.and_eq_true] at h ⊢
      exact ⟨h.1, ih h.2⟩

theorem leadsWith_length {p b : List Char} (h : leadsWith p b = true) :
    p.length ≤ b.length := by
  induction p generalizing b with
  | nil => simp
  | cons x xs ih =>
    cases b with
    | nil => simp [leadsWith] at h
    | cons y ys =>
      simp only [leadsWith, Bool.and_eq_true] at h
      simpa using ih h.2

theorem leadsWith_self_append (p e : List Char) : leadsWith p (p ++ e) = true := by
  induction p with
  | nil => rfl
  | cons x xs ih => simp [leadsWith, ih]

theorem takeDigits_sound (b : List Char) :
    b = (takeDigits b).1 ++ (takeDigits b).2 := by
  induction b with
  | nil => rfl
  | cons c cs ih =>
    by_cases h : isDigitCh c = true
    · simp [takeDigits, h]
      exact ih
    · simp [takeDigits, h]

theorem takeDigits_append {b : List Char} {ds r : List Char}
    (h : takeDigits b = (ds, r)) (hr : r ≠ []) (e : List Char) :
    takeDigits (b ++ e) = (ds, r ++ e) := by
  induction b generalizing ds with
  | nil =>
    simp only [takeDigits] at h
    cases h
    exact absurd rfl hr
  | cons c cs ih =>
    by_cases hd : isDigitCh c = true
    · rcases hds : takeDigits cs with ⟨ds', r'⟩
      simp only [takeDigits, hd, if_pos, hds] at h
      cases h
      have hrec := @ih ds' (by rw [hds])
      simp only [List.cons_append, takeDigits, hd, if_pos, List.append_eq, hrec]
    · simp only [takeDigits, hd, Bool.false_eq_true, if_neg, not_false_iff] at h
      cases h
      simp only [List.cons_append, takeDigits, hd, Bool.false_eq_true, if_neg,
        not_false_iff, List.append_eq]

theorem matchSep_le {r : List Char} {k : Nat} (h : matchSep r = some k) :
    k ≤ r.length := by
  cases r with
  | nil => simp [matchSep] at h
  | cons c cs =>
    by_cases hc : c = '\r'
    · cases cs with
      | nil => simp [matchSep, hc] at h
      | cons d ds =>
        by_cases hd : d = '\n'
        · simp [matchSep, hc, hd] at h
          simp only [List.length_cons]
          omega
        · simp [matchSep, hc, hd] at h
    · by_cases hn : c = '\n'
      · simp [matchSep, hc, hn] at h
        simp only [List.length_cons]
        omega
      · simp [matchSep, hc, hn] at h

theorem matchSep_append {r : List Char} {k : Nat} (h : matchSep r = some k)
    (e : List Char) : matchSep (r ++ e) = some k := by
  cases r with
  | nil => simp [matchSep] at h
  | cons c cs =>
    by_cases hc : c = '\r'
    · cases cs with
      | nil => simp [matchSep, hc] at h
      | cons d ds =>
        by_cases hd : d = '\n'
        · simpa [matchSep, hc, hd] using h
        · simp [matchSep, hc, hd] at h
    · by_cases hn : c = '\n'
      · simpa [matchSep, hc, hn] using h
      · simp [matchSep, hc, hn] at h

theorem drop_append_of_le {α : Type} {n : Nat} {l₁ l₂ : List α} (h : n ≤ l₁.length) :
    (l₁ ++ l₂).drop n = l₁.drop n ++ l₂ := by
  rw [List.drop_append_eq_append_drop]
  have h0 : n - l₁.length = 0 := by omega
  simp [h0]

theorem take_append_of_le {α : Type} {n : Nat} {l₁ l₂ : List α} (h : n ≤ l₁.length) :
    (l₁ ++ l₂).take n = l₁.take n := by
  rw [List.take_append_eq_append_take]
  have h0 : n - l₁.length = 0 := by omega
  simp [h0]

/-- Everything the later development needs about a successful header match:
the header is nonempty, it lies within the buffer, and appending more data
to the buffer leaves the match unchanged (stability of the anchored match). -/
theorem parseHeader_some {b : List Char} {n hl : Nat}
    (h : parseHeader b = some (n, hl)) :
    0 < hl ∧ hl ≤ b.length ∧ ∀ e, parseHeader (b ++ e) = some (n, hl) := by
  unfold parseHeader at h
  by_cases hlw : leadsWith headerLit b = true
  · rw [if_pos hlw] at h
    rcases htd : takeDigits (b.drop headerLit.length) with ⟨ds, rest2⟩
    rw [htd] at h
    cases ds with
    | nil => simp at h
    | cons d ds' =>
      dsimp only at h
      rcases hm1 : matchSep rest2 with _ | k1
      · rw [hm1] at h; simp at h
      · rw [hm1] at h
        dsimp only at h
        rcases hm2 : matchSep (rest2.drop k1) with _ | k2
        · rw [hm2] at h; simp at h
        · rw [hm2] at h
          dsimp only at h
          simp only [Option.some.injEq, Prod.mk.injEq] at h
          obtain ⟨rfl, rfl⟩ := h
          have hLb : headerLit.length ≤ b.length := leadsWith_length hlw
          have hsound := takeDigits_sound (b.drop headerLit.length)
          rw [htd] at hsound
          have hlen2 : b.length - headerLit.length = ds'.length + rest2.length + 1 := by
            have := congrArg List.length hsound
            simpa [List.length_drop] using this
          have hk1 : k1 ≤ rest2.length := matchSep_le hm1
          have hk2 : k2 ≤ rest2.length - k1 := by
            have := matchSep_le hm2
            simpa [List.length_drop] using this
          refine ⟨by simp only [List.length_cons]; omega,
            by simp only [List.length_cons]; omega, ?_⟩
          intro e
          have hlw' : leadsWith headerLit (b ++ e) = true := leadsWith_append hlw e
          have hdrop : (b ++ e).drop headerLit.length = b.drop headerLit.length ++ e :=
            drop_append_of_le hLb
          have hr2ne : rest2 ≠ [] := by
            intro hnil
            rw [hnil] at hm1
            simp [matchSep] at hm1
          have htd' : takeDigits (b.drop headerLit.length ++ e) = (d :: ds', rest2 ++ e) :=
            takeDigits_append htd hr2ne e
          have hm1' : matchSep (rest2 ++ e) = some k1 := matchSep_append hm1 e
          have hdrop2 : (rest2 ++ e).drop k1 = rest2.drop k1 ++ e := drop_append_of_le hk1
          have hm2' : matchSep (rest2.drop k1 ++ e) = some k2 := matchSep_append hm2 e
          unfold parseHeader
          rw [if_pos hlw', hdrop, htd']
          dsimp only
          rw [hm1']
          dsimp only
          rw [hdrop2, hm2']
  · rw [if_neg hlw] at h
    cases h

/-- The extraction loop of handleData: repeatedly match the header at the
buffer start; stop when there is no match or not enough data; otherwise
slice out exactly the declared number of characters, advance the buffer
past header plus content, hand the slice to the JSON parser (abstracted
as a parameter; a parse failure is logged and dropped), and loop on the
remainder. Returns the parsed messages in extraction order and the final
buffer. -/
def processLoop {μ : Type} (parse : List Char → Option μ) (b : List Char) :
    List μ × List Char :=
  match hh : parseHeader b with
  | none => ([], b)
  | some (n, hl) =>
    if hs : hl + n ≤ b.length then
      match parse ((b.drop hl).take n) with
      | some m =>
        (m :: (processLoop parse (b.drop (hl + n))).1,
          (processLoop parse (b.drop (hl + n))).2)
      | none => processLoop parse (b.drop (hl + n))
    else ([], b)
termination_by b.length
decreasing_by
  all_goals
    have h1 := (parseHeader_some hh).1
    simp only [List.length_drop]
    omega

theorem processLoop_of_none {μ : Type} (parse : List Char → Option μ)
    {b : List Char} (h : parseHeader b = none) : processLoop parse b = ([], b) := by
  unfold processLoop
  split
  · rfl
  · rename_i n hl heq
    rw [h] at heq
    cases heq

theorem processLoop_of_short {μ : Type} (parse : List Char → Option μ)
    {b : List Char} {n hl : Nat} (h : parseHeader b = some (n, hl))
    (hs : ¬ hl + n ≤ b.length) : processLoop parse b = ([], b) := by
  unfold processLoop
  split
  · rfl
  · rename_i n' hl' heq
    rw [h] at heq
    simp only [Option.some.injEq, Prod.mk.injEq] at heq
    obtain ⟨rfl, rfl⟩ := heq
    rw [dif_neg hs]

theorem processLoop_of_step {μ : Type} (parse : List Char → Option μ)
    {b : List Char} {n hl : Nat} (h : parseHeader b = some (n, hl))
    (hs : hl + n ≤ b.length) :
    processLoop parse b =
      (match parse ((b.drop hl).take n) with
        | some m =>
          (m :: (processLoop parse (b.drop (hl + n))).1,
            (processLoop parse (b.drop (hl + n))).2)
        | none => processLoop parse (b.drop (hl + n))) := by
  conv_lhs => rw [processLoop]
  split
  · rename_i heq
    rw [h] at heq
    cases heq
  · rename_i n' hl' heq
    rw [h] at heq
    simp only [Option.some.injEq, Prod.mk.injEq] at heq
    obtain ⟨rfl, rfl⟩ := heq
    rw [dif_pos hs]

/-- Feeding extra data after any buffer processes exactly the messages of the
original buffer followed by the messages the leftover-plus-extra yields:
the extraction loop never re-reads or loses already-settled data. -/
theorem processLoop_append {μ : Type} (parse : List Char → Option μ)
    (b e : List Char) :
    processLoop parse (b ++ e) =
      ((processLoop parse b).1 ++
        (processLoop parse ((processLoop parse b).2 ++ e)).1,
        (processLoop parse ((processLoop parse b).2 ++ e)).2) := by
  have main : ∀ N : Nat, ∀ b : List Char, b.length ≤ N → ∀ e : List Char,
      processLoop parse (b ++ e) =
        ((processLoop parse b).1 ++
          (processLoop parse ((processLoop parse b).2 ++ e)).1,
          (processLoop parse ((processLoop parse b).2 ++ e)).2) := by
    intro N
    induction N with
    | zero =>
      intro b hb e
      have hbnil : b = [] := by
        cases b with
        | nil => rfl
        | cons x xs => simp at hb
      subst hbnil
      have hnone : parseHeader [] = none := by
        cases hph : parseHeader ([] : List Char) with
        | none => rfl
        | some p =>
          obtain ⟨n, hl⟩ := p
          have := parseHeader_some hph
          simp at this
          omega
      rw [processLoop_of_none parse hnone]
      simp
    | succ N ih =>
      intro b hb e
      cases hph : parseHeader b with
      | none =>
        rw [processLoop_of_none parse hph]
        simp
      | some p =>
        obtain ⟨n, hl⟩ := p
        by_cases hs : hl + n ≤ b.length
        · have hsp := parseHeader_some hph
          have hph2 : parseHeader (b ++ e) = some (n, hl) := hsp.2.2 e
          have hs2 : hl + n ≤ (b ++ e).length := by
            simp only [List.length_append]
            omega
          rw [processLoop_of_step parse hph hs, processLoop_of_step parse hph2 hs2]
          have hcontent : ((b ++ e).drop hl).take n = (b.drop hl).take n := by
            rw [drop_append_of_le (by omega),
              take_append_of_le (by simp only [List.length_drop]; omega)]
          have hrest : (b ++ e).drop (hl + n) = b.drop (hl + n) ++ e :=
            drop_append_of_le (by omega)
          rw [hcontent, hrest]
          have ihr := ih (b.drop (hl + n))
            (by simp only [List.length_drop]; omega) e
          cases hp : parse ((b.drop hl).take n) with
          | some m =>
            simp only [ihr, List.cons_append]
          | none =>
            exact ihr
        · rw [processLoop_of_short parse hph hs]
          simp
  exact main b.length b le_rfl e

/-- The leftover buffer of the extraction loop is fully stuck: running the
loop on it again extracts nothing. Partial trailing data is retained as is. -/
theorem processLoop_leftover {μ : Type} (parse : List Char → Option μ)
    (b : List Char) :
    processLoop parse (processLoop parse b).2 = ([], (processLoop parse b).2) := by
  have main : ∀ N : Nat, ∀ b : List Char, b.length ≤ N →
      processLoop parse (processLoop parse b).2 = ([], (processLoop parse b).2) := by
    intro N
    induction N with
    | zero =>
      intro b hb
      have hbnil : b = [] := by
        cases b with
        | nil => rfl
        | cons x xs => simp at hb
      subst hbnil
      have hnone : parseHeader [] = none := by
        cases hph : parseHeader ([] : List Char) with
        | none => rfl
        | some p =>
          obtain ⟨n, hl⟩ := p
          have := parseHeader_some hph
          simp at this
          omega
      rw [processLoop_of_none parse hnone, processLoop_of_none parse hnone]
    | succ N ih =>
      intro b hb
      cases hph : parseHeader b with
      | none =>
        rw [processLoop_of_none parse hph]
        exact processLoop_of_none parse hph
      | some p =>
        obtain ⟨n, hl⟩ := p
        by_cases hs : hl + n ≤ b.length
        · have hsp := parseHeader_some hph
          rw [processLoop_of_step parse hph hs]
          have ihr := ih (b.drop (hl + n)) (by simp only [List.length_drop]; omega)
          cases hp : parse ((b.drop hl).take n) with
          | some m => exact ihr
          | none => exact ihr
        · rw [processLoop_of_short parse hph hs]
          exact processLoop_of_short parse hph hs
  exact main b.length b le_rfl

/-- The loop only ever consumes a prefix of the buffer: the final buffer is
a suffix of the input, so unconsumed trailing data is never discarded. -/
theorem processLoop_consumed {μ : Type} (parse : List Char → Option μ)
    (b : List Char) : ∃ c, b = c ++ (processLoop parse b).2 := by
  have main : ∀ N : Nat, ∀ b : List Char, b.length ≤ N →
      ∃ c, b = c ++ (processLoop parse b).2 := by
    intro N
    induction N with
    | zero =>
      intro b hb
      exact ⟨[], by
        cases hph : parseHeader b with
        | none => rw [processLoop_of_none parse hph]; rfl
        | some p =>
          obtain ⟨n, hl⟩ := p
          have := parseHeader_some hph
          omega⟩
    | succ N ih =>
      intro b hb
      cases hph : parseHeader b with
      | none =>
        exact ⟨[], by rw [processLoop_of_none parse hph]; rfl⟩
      | some p =>
        obtain ⟨n, hl⟩ := p
        by_cases hs : hl + n ≤ b.length
        · have hsp := parseHeader_some hph
          rw [processLoop_of_step parse hph hs]
          obtain ⟨c', hc'⟩ := ih (b.drop (hl + n))
            (by simp only [List.length_drop]; omega)
          cases hp : parse ((b.drop hl).take n) with
          | some m =>
            refine ⟨b.take (hl + n) ++ c', ?_⟩
            conv_lhs => rw [← List.take_append_drop (hl + n) b]
            rw [List.append_assoc, ← hc']
          | none =>
            refine ⟨b.take (hl + n) ++ c', ?_⟩
            conv_lhs => rw [← List.take_append_drop (hl + n) b]
            rw [List.append_assoc, ← hc']
        · exact ⟨[], by rw [processLoop_of_short parse hph hs]; rfl⟩
  exact main b.length b le_rfl

/-- Feeding a sequence of data chunks into the framer, starting from the
given buffer: each chunk is appended to the buffer and the extraction loop
runs to exhaustion, exactly as handleData does per stdout data event.
Returns all messages in order and the final buffer. -/
def feedChunks {μ : Type} (parse : List Char → Option μ) (buf : List Char) :
    List (List Char) → List μ × List Char
  | [] => ([], buf)
  | c :: cs =>
    ((processLoop parse (buf ++ c)).1 ++
      (feedChunks parse (processLoop parse (buf ++ c)).2 cs).1,
      (feedChunks parse (processLoop parse (buf ++ c)).2 cs).2)

theorem feedChunks_flatten {μ : Type} (parse : List Char → Option μ)
    (chunks : List (List Char)) :
    ∀ buf : List Char, processLoop parse buf = ([], buf) →
      feedChunks parse buf chunks = processLoop parse (buf ++ chunks.flatten) := by
  induction chunks with
  | nil =>
    intro buf hstuck
    simp only [feedChunks, List.flatten_nil, List.append_nil]
    exact hstuck.symm
  | cons c cs ih =>
    intro buf hstuck
    have hleft := processLoop_leftover parse (buf ++ c)
    have ihr := ih (processLoop parse (buf ++ c)).2 hleft
    have happ := processLoop_append parse (buf ++ c) cs.flatten
    simp only [feedChunks, ihr, List.flatten_cons]
    rw [← List.append_assoc]
    rw [happ]

theorem parseHeader_nil : parseHeader ([] : List Char) = none := by
  cases hph : parseHeader ([] : List Char) with
  | none => rfl
  | some p =>
    obtain ⟨n, hl⟩ := p
    have := parseHeader_some hph
    simp at this
    omega

/-- C1: for every message stream and every partition of it into chunks,
feeding the chunks one at a time into the framer (handleData) yields the
same ordered list of parsed messages and the same final buffer as feeding
the whole stream in a single call (so a single feed call may yield zero,
one, or many messages as the partition dictates), and the data past the
consumed frames is retained in the buffer, never discarded: the stream is
the consumed part followed by the final buffer. -/
theorem C1_framer_chunk_invariance {μ : Type} (parse : List Char → Option μ)
    (chunks : List (List Char)) :
    feedChunks parse [] chunks = feedChunks parse [] [chunks.flatten] ∧
    ∃ consumed, chunks.flatten = consumed ++ (feedChunks parse [] chunks).2 := by
  have hstuck : processLoop parse ([] : List Char) = ([], []) :=
    processLoop_of_none parse parseHeader_nil
  have h1 := feedChunks_flatten parse chunks [] hstuck
  have h2 := feedChunks_flatten parse [chunks.flatten] [] hstuck
  constructor
  · rw [h1, h2]
    simp
  · obtain ⟨c, hc⟩ := processLoop_consumed parse chunks.flatten
    rw [h1]
    exact ⟨c, by simpa using hc⟩

/-- A parsed inbound message, as classified by handleMessage: a response
with its echoed request sequence number, success flag, optional failure
text and optional body; or an event; or an unknown message type (logged
and ignored). The body type is abstract: the client never inspects it. -/
inductive Msg (V : Type) where
  | response (requestSeq : Nat) (success : Bool) (message : Option (List Char))
      (body : Option V)
  | event (name : List Char) (body : Option V)
  | other

/-- Observable side effects of the client on its callers and its subprocess.
resolve and reject invoke the continuation registered for a sequence
number (the caller is identified by the id stored with the pending entry);
the remaining constructors are writes to the subprocess, timer arming,
and EventEmitter publications. -/
inductive Effect (V : Type) where
  | resolve (seq caller : Nat) (body : Option V)
  | reject (seq caller : Nat) (err : List Char)
  | emitEvent (name : List Char) (body : Option V)
  | emitExit (code : Int)
  | writeRequest (seq : Nat) (command : List Char)
  | armTimer (seq : Nat) (delay : Nat)
  | writeNotification (seq : Nat) (command : List Char) (file : List Char)
  | writeExitCommand
  | graceWait (ms : Nat)
  | forceKill
deriving DecidableEq

/-- Client-instance state: whether a live subprocess handle exists, the
monotone sequence counter, the pending-request map (sequence number to
caller id, insertion order kept) and the open-file set. -/
structure ClientState where
  processAlive : Bool
  sequence : Nat
  pending : List (Nat × Nat)
  openFiles : List (List Char)
deriving DecidableEq

/-- Pending-map lookup by sequence number, as Map.get. -/
def lookupSeq (s : Nat) : List (Nat × Nat) → Option Nat
  | [] => none
  | p :: ps => if p.1 = s then some p.2 else lookupSeq s ps

/-- Pending-map removal by sequence number, as Map.delete (on a map whose
keys are unique, removing every entry with the key is removing the entry). -/
def removeSeq (s : Nat) (l : List (Nat × Nat)) : List (Nat × Nat) :=
  l.filter (fun p => decide (p.1 ≠ s))

/-- The recoverable-failure signature substring tested by the client. -/
def debugSig : List Char := ("Debug Failure").toList

/-- Fallback error text when a failure response carries no message. -/
def requestFailedText : List Char := ("Request failed").toList

/-- Text prepended when a Debug Failure message is rewritten with context. -/
def debugWrapA : List Char := ("TSServer Debug Failure: ").toList

/-- Text appended when a Debug Failure message is rewritten with context. -/
def debugWrapB : List Char :=
  (". This may be due to file state issues or concurrent operations.").toList

/-- The error text a failure response produces, exactly as handleMessage
builds it: new Error(message.message or the fallback), then rewritten with
added context when the message contains the Debug Failure signature. -/
def errorTextFor (m : Option (List Char)) : List Char :=
  match m with
  | none => requestFailedText
  | some s =>
    if s.isEmpty then requestFailedText
    else if hasSubstr debugSig s then debugWrapA ++ s ++ debugWrapB
    else s

/-- One inbound message through handleMessage: a response either settles
the matching pending entry (removing it first, then resolving with the
body on success or rejecting with the constructed error on failure) or,
with no matching entry, is logged and discarded with no effect; an event
is republished to subscribers; an unknown type is logged and discarded. -/
def handleMessageStep {V : Type} (m : Msg V) (st : ClientState) :
    ClientState × List (Effect V) :=
  match m with
  | .response rseq succ msg body =>
    match lookupSeq rseq st.pending with
    | some caller =>
      let st' := { st with pending := removeSeq rseq st.pending }
      if succ then (st', [.resolve rseq caller body])
      else (st', [.reject rseq caller (errorTextFor msg)])
    | none => (st, [])
  | .event name body => (st, [.emitEvent name body])
  | .other => (st, [])

/-- Per-command timeout budget: a longer budget for the open command. -/
def timeoutBudget (command : List Char) : Nat :=
  if command = ("open").toList then 30000 else 15000

/-- The timeout error text, exactly as built in requestWithRetry. -/
def timeoutText (command : List Char) : List Char :=
  ("Request ").toList ++ command ++ (" timed out after ").toList ++
    toDecChars (timeoutBudget command) ++ ("ms").toList

/-- Expiry of the per-request timer: if the sequence number is still
pending, remove it and reject with the timeout error; otherwise the
request was already settled and the timer does nothing. -/
def timeoutFireStep {V : Type} (seq : Nat) (command : List Char)
    (st : ClientState) : ClientState × List (Effect V) :=
  match lookupSeq seq st.pending with
  | some caller =>
    ({ st with pending := removeSeq seq st.pending },
      [.reject seq caller (timeoutText command)])
  | none => (st, [])

/-- The synchronous part of one send attempt inside requestWithRetry:
allocate the next sequence number, register the pending entry, write the
framed request, and arm the per-command timer. -/
def sendAttemptStep {V : Type} (command : List Char) (caller : Nat)
    (st : ClientState) : ClientState × List (Effect V) :=
  ({ st with
      sequence := st.sequence + 1,
      pending := st.pending ++ [(st.sequence, caller)] },
    [.writeRequest st.sequence command,
      .armTimer st.sequence (timeoutBudget command)])

/-- The exit handler installed in start(): clear the process handle and
republish the exit as a lifecycle event. It does not touch the pending
map or the open-file set. -/
def procExitStep {V : Type} (code : Int) (st : ClientState) :
    ClientState × List (Effect V) :=
  ({ st with processAlive := false }, [.emitExit code])

/-- The cancellation error text used by stop(). -/
def shuttingDownText : List Char := ("TSServer is shutting down").toList

/-- stop(): reject every pending entry with the shutdown error and clear
the map; if a process handle exists, write the graceful exit command,
wait a bounded grace period (3000 ms) racing natural exit, and force-kill
unless the process exited within the grace period; finally clear the
handle and the open-file set. graceExit tells whether the process exited
naturally during the grace period. -/
def stopStep {V : Type} (graceExit : Bool) (st : ClientState) :
    ClientState × List (Effect V) :=
  let rejects := st.pending.map (fun p => Effect.reject p.1 p.2 shuttingDownText)
  let procEffects :=
    if st.processAlive then
      [Effect.writeExitCommand, Effect.graceWait 3000] ++
        (if graceExit then [] else [Effect.forceKill])
    else []
  ({ st with pending := [], openFiles := [], processAlive := false },
    rejects ++ procEffects)

/-- notify(): requires a live process, allocates a sequence number and
writes the framed notification without registering a pending entry. -/
def notifyStep {V : Type} (command file : List Char) (st : ClientState) :
    Except (List Char) (ClientState × List (Effect V)) :=
  if st.processAlive then
    .ok ({ st with sequence := st.sequence + 1 },
      [.writeNotification st.sequence command file])
  else .error (("TSServer not started").toList)

/-- openFile(): canonicalize the path (path.resolve, abstracted as the
canon parameter), skip entirely when the canonical path is already in the
open-file set, otherwise send the open notification and add the path. -/
def openFileStep {V : Type} (canon : List Char → List Char) (p : List Char)
    (st : ClientState) : Except (List Char) (ClientState × List (Effect V)) :=
  let n := canon p
  if n ∈ st.openFiles then .ok (st, [])
  else
    match notifyStep (V := V) (("open").toList) n st with
    | .ok (st', effs) => .ok ({ st' with openFiles := st'.openFiles ++ [n] }, effs)
    | .error e => .error e

/-- closeFile(): canonicalize the path, skip entirely when the canonical
path is not in the open-file set, otherwise send the close notification
and remove the path. -/
def closeFileStep {V : Type} (canon : List Char → List Char) (p : List Char)
    (st : ClientState) : Except (List Char) (ClientState × List (Effect V)) :=
  let n := canon p
  if n ∈ st.openFiles then
    match notifyStep (V := V) (("close").toList) n st with
    | .ok (st', effs) =>
      .ok ({ st' with openFiles := st'.openFiles.filter (fun f => decide (f ≠ n)) },
        effs)
    | .error e => .error e
  else .ok (st, [])

/-- Outcome of one awaited send attempt, as observed by the retry loop:
either the resolved payload or the message of the rejection error. -/
inductive RRes (V : Type) where
  | ok (v : V)
  | err (msg : List Char)
deriving DecidableEq

/-- Backoff delay before the retry issued after the given attempt. -/
def retryDelay (attempt : Nat) : Nat := min (1000 * 2 ^ attempt) 5000

/-- The retry loop of requestWithRetry, abstracted over the outcome of
each attempt: attempts run from the given index to maxRetries inclusive,
each allocating the next sequence number; a failure whose message
contains the Debug Failure signature and which is not the last attempt
waits the capped exponential backoff delay and retries; any other
failure propagates immediately; a success returns the payload. Returns
the outcome, the sequence numbers allocated, and the delays waited. -/
def rwrGo {V : Type} (outcome : Nat → RRes V) (maxRetries : Nat)
    (attempt : Nat) (seqc : Nat) : RRes V × List Nat × List Nat :=
  match outcome attempt with
  | .ok v => (.ok v, [seqc], [])
  | .err m =>
    if h : hasSubstr debugSig m = true ∧ attempt < maxRetries then
      let r := rwrGo outcome maxRetries (attempt + 1) (seqc + 1)
      (r.1, seqc :: r.2.1, retryDelay attempt :: r.2.2)
    else (.err m, [seqc], [])
termination_by maxRetries - attempt
decreasing_by
  omega

/-- request() delegates to requestWithRetry with a retry ceiling of 3. -/
def requestWithRetryModel {V : Type} (outcome : Nat → RRes V) (seq0 : Nat) :
    RRes V × List Nat × List Nat :=
  rwrGo outcome 3 0 seq0

theorem lookupSeq_cons (s : Nat) (p : Nat × Nat) (ps : List (Nat × Nat)) :
    lookupSeq s (p :: ps) = if p.1 = s then some p.2 else lookupSeq s ps := rfl

theorem removeSeq_cons (s : Nat) (p : Nat × Nat) (ps : List (Nat × Nat)) :
    removeSeq s (p :: ps) =
      if p.1 = s then removeSeq s ps else p :: removeSeq s ps := by
  simp only [removeSeq, List.filter_cons]
  by_cases hp : p.1 = s
  · simp [hp]
  · simp [hp]

theorem lookupSeq_removeSeq_ne {s t : Nat} (P : List (Nat × Nat)) (h : s ≠ t) :
    lookupSeq s (removeSeq t P) = lookupSeq s P := by
  induction P with
  | nil => rfl
  | cons p ps ih =>
    rw [removeSeq_cons, lookupSeq_cons]
    by_cases hp : p.1 = t
    · rw [if_pos hp, if_neg (by omega), ih]
    · rw [if_neg hp, lookupSeq_cons]
      by_cases hs : p.1 = s
      · rw [if_pos hs, if_pos hs]
      · rw [if_neg hs, if_neg hs, ih]

theorem lookupSeq_removeSeq_self (s : Nat) (P : List (Nat × Nat)) :
    lookupSeq s (removeSeq s P) = none := by
  induction P with
  | nil => rfl
  | cons p ps ih =>
    rw [removeSeq_cons]
    by_cases hp : p.1 = s
    · rw [if_pos hp]
      exact ih
    · rw [if_neg hp, lookupSeq_cons, if_neg hp]
      exact ih

theorem lookupSeq_isSome_iff_mem {s : Nat} (P : List (Nat × Nat)) :
    (lookupSeq s P).isSome = true ↔ s ∈ P.map Prod.fst := by
  induction P with
  | nil => simp [lookupSeq]
  | cons p ps ih =>
    rw [lookupSeq_cons]
    by_cases hp : p.1 = s
    · simp [hp]
    · rw [if_neg hp]
      simp only [List.map_cons, List.mem_cons]
      rw [ih]
      constructor
      · exact fun hm => Or.inr hm
      · rintro (hm | hm)
        · exact absurd hm.symm hp
        · exact hm

theorem keys_removeSeq_nodup {P : List (Nat × Nat)} (t : Nat)
    (h : (P.map Prod.fst).Nodup) : ((removeSeq t P).map Prod.fst).Nodup :=
  ((List.filter_sublist P).map Prod.fst).nodup h

theorem mem_keys_removeSeq {s t : Nat} {P : List (Nat × Nat)} :
    s ∈ (removeSeq t P).map Prod.fst ↔ s ∈ P.map Prod.fst ∧ s ≠ t := by
  simp only [removeSeq, List.mem_map, List.mem_filter]
  constructor
  · rintro ⟨p, ⟨hmem, hkey⟩, rfl⟩
    simp at hkey
    exact ⟨⟨p, hmem, rfl⟩, hkey⟩
  · rintro ⟨⟨p, hmem, rfl⟩, hne⟩
    exact ⟨p, ⟨hmem, by simpa using hne⟩, rfl⟩

/-- Delivering a list of parsed messages one after another, as the framer
loop does with each extracted message. -/
def deliverAll {V : Type} (msgs : List (Msg V)) (st : ClientState) :
    ClientState × List (Effect V) :=
  match msgs with
  | [] => (st, [])
  | m :: ms =>
    ((deliverAll ms (handleMessageStep m st).1).1,
      (handleMessageStep m st).2 ++ (deliverAll ms (handleMessageStep m st).1).2)

theorem hasSubstr_append_mid (n a b : List Char) :
    hasSubstr n (a ++ n ++ b) = true := by
  induction a with
  | nil =>
    cases hn : n ++ b with
    | nil =>
      simp only [List.nil_append]
      rw [hn]
      have : n = [] := by
        cases n with
        | nil => rfl
        | cons x xs => simp at hn
      simp [hasSubstr, this, leadsWith]
    | cons c cs =>
      simp only [List.nil_append]
      rw [hn]
      simp only [hasSubstr, Bool.or_eq_true]
      left
      rw [← hn]
      exact leadsWith_self_append n b
  | cons x xs ih =>
    simp only [List.cons_append, hasSubstr, Bool.or_eq_true]
    right
    simpa using ih

theorem hasSubstr_self (s : List Char) : hasSubstr s s = true := by
  have h := hasSubstr_append_mid s [] []
  simpa using h

/-- Delivering responses with distinct echoed sequence numbers, all pending,
resolves each registered caller with exactly the body of the response that
echoes its sequence number, in arrival order, with the caller read off the
original pending map. -/
theorem deliverAll_resolveAll {V : Type} (rs : List (Nat × Option V)) :
    ∀ st : ClientState, (st.pending.map Prod.fst).Nodup →
      (rs.map Prod.fst).Nodup →
      (∀ p ∈ rs, (lookupSeq p.1 st.pending).isSome = true) →
      (deliverAll (rs.map (fun p => Msg.response p.1 true none p.2)) st).2 =
        rs.map (fun p =>
          Effect.resolve p.1 ((lookupSeq p.1 st.pending).getD 0) p.2) := by
  induction rs with
  | nil =>
    intro st _ _ _
    rfl
  | cons p rs' ih =>
    intro st hnd hdist hmem
    obtain ⟨c, hc⟩ := Option.isSome_iff_exists.mp (hmem p (by simp))
    have hstep : handleMessageStep (V := V) (Msg.response p.1 true none p.2) st =
        ({ st with pending := removeSeq p.1 st.pending },
          [Effect.resolve p.1 c p.2]) := by
      simp [handleMessageStep, hc]
    simp only [List.map_cons, deliverAll, hstep]
    have hnd' : ((removeSeq p.1 st.pending).map Prod.fst).Nodup :=
      keys_removeSeq_nodup _ hnd
    have hdist' : (rs'.map Prod.fst).Nodup := (List.nodup_cons.mp hdist).2
    have hp_not : p.1 ∉ rs'.map Prod.fst := (List.nodup_cons.mp hdist).1
    have hne : ∀ q ∈ rs', q.1 ≠ p.1 := by
      intro q hq he
      exact hp_not (he ▸ List.mem_map.mpr ⟨q, hq, rfl⟩)
    have hmem' : ∀ q ∈ rs',
        (lookupSeq q.1
          ({ st with pending := removeSeq p.1 st.pending } : ClientState).pending).isSome
          = true := by
      intro q hq
      show (lookupSeq q.1 (removeSeq p.1 st.pending)).isSome = true
      rw [lookupSeq_removeSeq_ne _ (hne q hq)]
      exact hmem q (List.mem_cons_of_mem _ hq)
    have ihr := ih _ hnd' hdist' hmem'
    rw [ihr]
    have hmapeq :
        rs'.map (fun q => Effect.resolve q.1
            ((lookupSeq q.1
              ({ st with pending := removeSeq p.1 st.pending } : ClientState).pending).getD 0)
            q.2) =
          rs'.map (fun q => Effect.resolve q.1
            ((lookupSeq q.1 st.pending).getD 0) q.2) := by
      apply List.map_congr_left
      intro q hq
      show Effect.resolve q.1 ((lookupSeq q.1 (removeSeq p.1 st.pending)).getD 0) q.2 = _
      rw [lookupSeq_removeSeq_ne _ (hne q hq)]
    rw [hmapeq, hc]
    rfl

/-- C2: a response whose echoed request sequence number matches a pending
entry removes that entry and settles exactly the caller registered under
that sequence number: on success it resolves with the response body, on
failure it rejects with the constructed error, whose text carries the
failure text reported by the external process as a substring; delivering
N pending responses in any arrival order resolves each caller with its
own body, never another caller's (no cross-resolution). -/
theorem C2_response_correlation {V : Type} (st : ClientState)
    (hnd : (st.pending.map Prod.fst).Nodup) :
    (∀ (s c : Nat) (t : Option (List Char)) (b : Option V) (succ : Bool),
      lookupSeq s st.pending = some c →
      handleMessageStep (Msg.response s succ t b) st =
        ({ st with pending := removeSeq s st.pending },
          [if succ then Effect.resolve s c b
            else Effect.reject s c (errorTextFor t)])) ∧
    (∀ t : List Char, t ≠ [] → hasSubstr t (errorTextFor (some t)) = true) ∧
    (∀ rs : List (Nat × Option V), (rs.map Prod.fst).Nodup →
      (∀ p ∈ rs, (lookupSeq p.1 st.pending).isSome = true) →
      (deliverAll (rs.map (fun p => Msg.response p.1 true none p.2)) st).2 =
        rs.map (fun p =>
          Effect.resolve p.1 ((lookupSeq p.1 st.pending).getD 0) p.2)) := by
  refine ⟨?_, ?_, ?_⟩
  · intro s c t b succ hc
    cases succ with
    | true => simp [handleMessageStep, hc]
    | false => simp [handleMessageStep, hc]
  · intro t ht
    have hne : t.isEmpty = false := by
      cases t with
      | nil => exact absurd rfl ht
      | cons x xs => rfl
    by_cases hsig : hasSubstr debugSig t = true
    · simp only [errorTextFor, hne, Bool.false_eq_true, if_neg, not_false_iff, hsig,
        if_pos]
      exact hasSubstr_append_mid t debugWrapA debugWrapB
    · simp only [errorTextFor, hne, Bool.false_eq_true, if_neg, not_false_iff, hsig]
      exact hasSubstr_self t
  · intro rs hdist hmem
    exact deliverAll_resolveAll rs st hnd hdist hmem

/-- Well-formedness of the client state: pending sequence numbers are
unique, and all of them were allocated below the current counter. -/
def WfClient (st : ClientState) : Prop :=
  (st.pending.map Prod.fst).Nodup ∧ ∀ p ∈ st.pending, p.1 < st.sequence

instance (st : ClientState) : Decidable (WfClient st) := by
  unfold WfClient
  infer_instance

/-- The events that mutate the client state: an inbound parsed message, a
per-request timer expiry, a stop() call, the subprocess exit handler, and
the synchronous part of one send attempt. -/
inductive ClientEvent (V : Type) where
  | inbound (m : Msg V)
  | timerFire (seq : Nat) (command : List Char)
  | stopCall (graceExit : Bool)
  | exited (code : Int)
  | sendAttempt (command : List Char) (caller : Nat)

/-- Dispatch of one event to the corresponding handler of the client. -/
def stepEv {V : Type} : ClientEvent V → ClientState → ClientState × List (Effect V)
  | .inbound m, st => handleMessageStep m st
  | .timerFire s c, st => timeoutFireStep s c st
  | .stopCall g, st => stopStep g st
  | .exited code, st => procExitStep code st
  | .sendAttempt c k, st => sendAttemptStep c k st

/-- The sequence number whose continuation an effect invokes, if any. -/
def effectSeq {V : Type} : Effect V → Option Nat
  | .resolve s _ _ => some s
  | .reject s _ _ => some s
  | _ => none

theorem wf_handleMessageStep {V : Type} (m : Msg V) (st : ClientState)
    (hwf : WfClient st) : WfClient (handleMessageStep m st).1 := by
  obtain ⟨hnd, hbound⟩ := hwf
  cases m with
  | response rseq succ msg body =>
    cases hc : lookupSeq rseq st.pending with
    | none => simpa [handleMessageStep, hc] using ⟨hnd, hbound⟩
    | some caller =>
      cases succ with
      | true =>
        have hred : (handleMessageStep (V := V) (Msg.response rseq true msg body) st).1
            = { st with pending := removeSeq rseq st.pending } := by
          simp [handleMessageStep, hc]
        rw [hred]
        exact ⟨keys_removeSeq_nodup _ hnd,
          fun p hp => hbound p (List.mem_of_mem_filter hp)⟩
      | false =>
        have hred : (handleMessageStep (V := V) (Msg.response rseq false msg body) st).1
            = { st with pending := removeSeq rseq st.pending } := by
          simp [handleMessageStep, hc]
        rw [hred]
        exact ⟨keys_removeSeq_nodup _ hnd,
          fun p hp => hbound p (List.mem_of_mem_filter hp)⟩
  | event name body => exact ⟨hnd, hbound⟩
  | other => exact ⟨hnd, hbound⟩

theorem wf_timeoutFireStep {V : Type} (s : Nat) (c : List Char) (st : ClientState)
    (hwf : WfClient st) : WfClient ((timeoutFireStep (V := V) s c st).1) := by
  obtain ⟨hnd, hbound⟩ := hwf
  cases hc : lookupSeq s st.pending with
  | none => simpa [timeoutFireStep, hc] using ⟨hnd, hbound⟩
  | some caller =>
    have hred : (timeoutFireStep (V := V) s c st).1
        = { st with pending := removeSeq s st.pending } := by
      simp [timeoutFireStep, hc]
    rw [hred]
    exact ⟨keys_removeSeq_nodup _ hnd,
      fun p hp => hbound p (List.mem_of_mem_filter hp)⟩

theorem wf_sendAttemptStep {V : Type} (c : List Char) (k : Nat) (st : ClientState)
    (hwf : WfClient st) : WfClient ((sendAttemptStep (V := V) c k st).1) := by
  obtain ⟨hnd, hbound⟩ := hwf
  constructor
  · show ((st.pending ++ [(st.sequence, k)]).map Prod.fst).Nodup
    rw [List.map_append]
    rw [List.nodup_append]
    refine ⟨hnd, List.nodup_singleton _, ?_⟩
    intro a ha hb
    simp only [List.map_cons, List.map_nil, List.mem_singleton] at hb
    obtain ⟨p, hp, rfl⟩ := List.mem_map.mp ha
    have := hbound p hp
    omega
  · intro p hp
    show p.1 < st.sequence + 1
    rcases List.mem_append.mp hp with hmem | hmem
    · have := hbound p hmem
      omega
    · simp only [List.mem_singleton] at hmem
      subst hmem
      omega

/-- C3: with a well-formed state, every client event preserves uniqueness
of pending sequence numbers and their bound by the counter (so at most one
pending request per sequence number ever exists); a response or a timer
expiry for a sequence number with no pending entry changes nothing and
invokes no continuation (a late or duplicate response is discarded without
error, and a timer firing after settlement does nothing), and stop() never
invokes a continuation for a sequence number that is not pending; each of
the three removers leaves the sequence number not pending, so whichever
event removes the entry first wins and the continuation runs exactly once. -/
theorem C3_pending_removed_once {V : Type} (st : ClientState) (hwf : WfClient st) :
    (∀ e : ClientEvent V, WfClient (stepEv e st).1) ∧
    (∀ s, s ∉ st.pending.map Prod.fst →
      (∀ succ t b, handleMessageStep (V := V) (Msg.response s succ t b) st = (st, [])) ∧
      (∀ c, timeoutFireStep (V := V) s c st = (st, [])) ∧
      (∀ g, ∀ eff ∈ (stopStep (V := V) g st).2, effectSeq eff ≠ some s)) ∧
    (∀ s succ t b,
      s ∉ ((handleMessageStep (V := V) (Msg.response s succ t b) st).1.pending.map
        Prod.fst)) ∧
    (∀ s c, s ∉ ((timeoutFireStep (V := V) s c st).1.pending.map Prod.fst)) ∧
    (∀ g, (stopStep (V := V) g st).1.pending = []) := by
  refine ⟨?_, ?_, ?_, ?_, ?_⟩
  · intro e
    cases e with
    | inbound m => exact wf_handleMessageStep m st hwf
    | timerFire s c => exact wf_timeoutFireStep s c st hwf
    | stopCall g =>
      exact ⟨by simp [stepEv, stopStep], by simp [stepEv, stopStep]⟩
    | exited code => exact hwf
    | sendAttempt c k => exact wf_sendAttemptStep c k st hwf
  · intro s hs
    have hlook : lookupSeq s st.pending = none := by
      cases hl : lookupSeq s st.pending with
      | none => rfl
      | some caller =>
        exact absurd ((lookupSeq_isSome_iff_mem st.pending).mp (by rw [hl]; rfl)) hs
    refine ⟨?_, ?_, ?_⟩
    · intro succ t b
      simp [handleMessageStep, hlook]
    · intro c
      simp [timeoutFireStep, hlook]
    · intro g eff heff
      simp only [stopStep, List.mem_append] at heff
      rcases heff with heff | heff
      · obtain ⟨p, hp, rfl⟩ := List.mem_map.mp heff
        simp only [effectSeq, ne_eq, Option.some.injEq]
        intro he
        exact hs (he ▸ List.mem_map.mpr ⟨p, hp, rfl⟩)
      · by_cases ha : st.processAlive = true
        · by_cases hg : g = true
          · simp [ha, hg] at heff
            rcases heff with rfl | rfl <;> simp [effectSeq]
          · simp [ha, hg] at heff
            rcases heff with rfl | rfl | ⟨hg2, rfl⟩ <;> simp [effectSeq]
        · simp [stopStep] at heff
          exact absurd heff.1 ha
  · intro s succ t b
    cases hl : lookupSeq s st.pending with
    | none =>
      simp only [handleMessageStep, hl]
      intro hmem
      exact absurd ((lookupSeq_isSome_iff_mem st.pending).mpr hmem) (by rw [hl]; simp)
    | some caller =>
      cases succ with
      | true =>
        simp only [handleMessageStep, hl]
        intro hmem
        exact (mem_keys_removeSeq.mp hmem).2 rfl
      | false =>
        simp only [handleMessageStep, hl]
        intro hmem
        exact (mem_keys_removeSeq.mp hmem).2 rfl
  · intro s c
    cases hl : lookupSeq s st.pending with
    | none =>
      simp only [timeoutFireStep, hl]
      intro hmem
      exact absurd ((lookupSeq_isSome_iff_mem st.pending).mpr hmem) (by rw [hl]; simp)
    | some caller =>
      simp only [timeoutFireStep, hl]
      intro hmem
      exact (mem_keys_removeSeq.mp hmem).2 rfl
  · intro g
    rfl

/-- C5 counterexample: with request 1 pending for caller 7, the exit
handler run on an unexpected subprocess exit leaves the pending entry in
place and produces only the lifecycle notification — no pending request is
failed as a side effect of the crash, contradicting the claim that every
pending request is failed so that the caller does not wait for its own
timer. -/
theorem C5_crash_counterexample :
    (procExitStep (V := Nat) 1 ⟨true, 5, [(1, 7)], []⟩).1.pending = [(1, 7)] ∧
    (procExitStep (V := Nat) 1 ⟨true, 5, [(1, 7)], []⟩).2 = [Effect.emitExit 1] ∧
    ∀ eff ∈ (procExitStep (V := Nat) 1 ⟨true, 5, [(1, 7)], []⟩).2,
      effectSeq eff = none := by
  refine ⟨rfl, rfl, ?_⟩
  intro eff heff
  simp only [procExitStep, List.mem_singleton] at heff
  subst heff
  rfl

/-- C5 amended: an unexpected subprocess exit surfaces as a distinct
lifecycle notification to subscribers (the exit event) and clears the
process handle, but it does not fail the pending requests: the exit
handler leaves the pending map untouched, so each pending caller is
settled only by its own timer, a later response, or stop(). -/
theorem C5_crash_notification {V : Type} (st : ClientState) (code : Int) :
    procExitStep (V := V) code st =
      ({ st with processAlive := false }, [Effect.emitExit code]) := rfl

/-- C7: every request is armed with a per-command timeout budget, 30000 ms
for the open command and 15000 ms for every other command (so open has the
strictly longer budget); the send attempt arms the timer with exactly the
command's budget; when the timer fires while the request is still pending
the entry is removed and the caller fails with the timed-out error, and
when it fires after the request was settled (no longer pending) it changes
nothing and invokes no continuation. -/
theorem C7_timeout_budget {V : Type} (st : ClientState) :
    timeoutBudget (("open").toList) = 30000 ∧
    (∀ c, c ≠ ("open").toList → timeoutBudget c = 15000) ∧
    15000 < timeoutBudget (("open").toList) ∧
    (∀ command caller, (sendAttemptStep (V := V) command caller st).2 =
      [Effect.writeRequest st.sequence command,
        Effect.armTimer st.sequence (timeoutBudget command)]) ∧
    (∀ s c caller, lookupSeq s st.pending = some caller →
      timeoutFireStep (V := V) s c st =
        ({ st with pending := removeSeq s st.pending },
          [Effect.reject s caller (timeoutText c)])) ∧
    (∀ s c, lookupSeq s st.pending = none →
      timeoutFireStep (V := V) s c st = (st, [])) := by
  refine ⟨rfl, ?_, by norm_num [timeoutBudget], ?_, ?_, ?_⟩
  · intro c hc
    simp only [timeoutBudget]
    rw [if_neg hc]
  · intro command caller
    rfl
  · intro s c caller hc
    simp [timeoutFireStep, hc]
  · intro s c hc
    simp [timeoutFireStep, hc]

/-- C7 witness: concrete budgets, and a concrete timer expiry that fires
while request 1 is pending (rejecting exactly that caller) next to one
that fires for a sequence number that is no longer pending (a no-op). -/
theorem C7_timeout_budget_witness :
    timeoutBudget (("open").toList) = 30000 ∧
    timeoutBudget (("definition").toList) = 15000 ∧
    timeoutFireStep (V := Nat) 1 (("definition").toList) ⟨true, 5, [(1, 7)], []⟩ =
      (⟨true, 5, [], []⟩,
        [Effect.reject 1 7 (timeoutText (("definition").toList))]) ∧
    timeoutFireStep (V := Nat) 3 (("definition").toList) ⟨true, 5, [(1, 7)], []⟩ =
      (⟨true, 5, [(1, 7)], []⟩, []) := by
  have h := C7_timeout_budget (V := Nat) ⟨true, 5, [(1, 7)], []⟩
  refine ⟨h.1, h.2.1 (("definition").toList) (by decide), ?_, ?_⟩
  · have h5 := h.2.2.2.2.1 1 (("definition").toList) 7 (by decide)
    rw [h5]
    rfl
  · have h6 := h.2.2.2.2.2 3 (("definition").toList) (by decide)
    rw [h6]

/-- C8: stop() rejects every pending request with the shutdown
cancellation error, exactly one rejection per pending entry in map order,
and empties the pending map, the open-file set and the process handle;
with a live process it writes the graceful exit command, waits the bounded
3000 ms grace period racing natural exit, and force-kills exactly when the
process did not exit within the grace period; on an already-stopped client
(no process, nothing pending, no open files) it is an idempotent no-op. -/
theorem C8_stop_behavior {V : Type} (st : ClientState) (g : Bool) :
    (stopStep (V := V) g st).2 =
      st.pending.map (fun p => Effect.reject p.1 p.2 shuttingDownText) ++
        (if st.processAlive then
          [Effect.writeExitCommand, Effect.graceWait 3000] ++
            (if g then [] else [Effect.forceKill])
          else []) ∧
    (stopStep (V := V) g st).1 =
      { st with pending := [], openFiles := [], processAlive := false } ∧
    (st.processAlive = false → st.pending = [] → st.openFiles = [] →
      stopStep (V := V) g st = (st, [])) := by
  refine ⟨rfl, rfl, ?_⟩
  intro ha hp ho
  cases st with
  | mk alive seqc pend files =>
    simp only at ha hp ho
    subst ha; subst hp; subst ho
    rfl

/-- C8 witness: stopping with two pending requests and a live process that
does not exit in the grace period rejects both callers once each, clears
the state and force-kills; stopping an already-stopped client is a no-op. -/
theorem C8_stop_behavior_witness :
    stopStep (V := Nat) false ⟨true, 9, [(1, 7), (2, 8)], [("a").toList]⟩ =
      (⟨false, 9, [], []⟩,
        [Effect.reject 1 7 shuttingDownText, Effect.reject 2 8 shuttingDownText,
          Effect.writeExitCommand, Effect.graceWait 3000, Effect.forceKill]) ∧
    stopStep (V := Nat) true ⟨false, 9, [], []⟩ = (⟨false, 9, [], []⟩, []) := by
  constructor
  · have h := C8_stop_behavior (V := Nat) ⟨true, 9, [(1, 7), (2, 8)], [("a").toList]⟩ false
    have h1 := h.1
    have h2 := h.2.1
    refine Prod.ext ?_ ?_
    · rw [h2]
    · rw [h1]
      rfl
  · exact (C8_stop_behavior (V := Nat) ⟨false, 9, [], []⟩ true).2.2 rfl rfl rfl

/-- The state after a successful open notification for canonical path n. -/
def openedSt (st : ClientState) (n : List Char) : ClientState :=
  { st with
      sequence := st.sequence + 1,
      openFiles := st.openFiles ++ [n] }

/-- The state after a successful close notification for canonical path n. -/
def closedSt (st : ClientState) (n : List Char) : ClientState :=
  { st with
      sequence := st.sequence + 1,
      openFiles := st.openFiles.filter (fun f => decide (f ≠ n)) }

/-- C6: for any canonicalization (path.resolve is abstract here) and any
path whose canonical form is not yet in the open-file set, openFile issues
exactly one open notification and adds the path, and a second openFile for
the same path with no intervening closeFile is a complete no-op (no second
notification, no state change); closeFile issues a close notification if
and only if the canonical path is a member of the open-file set, removing
it, and is a no-op otherwise. -/
theorem C6_open_close_dedup {V : Type} (canon : List Char → List Char)
    (p : List Char) (st : ClientState) (halive : st.processAlive = true) :
    (canon p ∉ st.openFiles →
      openFileStep (V := V) canon p st =
        .ok (openedSt st (canon p),
          [Effect.writeNotification st.sequence (("open").toList) (canon p)]) ∧
      openFileStep (V := V) canon p (openedSt st (canon p)) =
        .ok (openedSt st (canon p), []) ∧
      canon p ∈ (openedSt st (canon p)).openFiles) ∧
    (canon p ∈ st.openFiles →
      closeFileStep (V := V) canon p st =
        .ok (closedSt st (canon p),
          [Effect.writeNotification st.sequence (("close").toList) (canon p)]) ∧
      canon p ∉ (closedSt st (canon p)).openFiles) ∧
    (canon p ∉ st.openFiles →
      closeFileStep (V := V) canon p st = .ok (st, [])) := by
  refine ⟨?_, ?_, ?_⟩
  · intro hnot
    refine ⟨?_, ?_, by simp [openedSt]⟩
    · simp [openFileStep, hnot, notifyStep, halive, openedSt]
    · have hmem : canon p ∈ (openedSt st (canon p)).openFiles := by simp [openedSt]
      simp [openFileStep, hmem]
  · intro hmem
    refine ⟨?_, ?_⟩
    · simp [closeFileStep, hmem, notifyStep, halive, closedSt]
    · simp [closedSt]
  · intro hnot
    simp [closeFileStep, hnot]

/-- C6 witness: with a live client whose open-file set is empty, opening
the same path twice issues exactly one open notification; closing it then
issues exactly one close notification, and closing it again is a no-op. -/
theorem C6_open_close_dedup_witness :
    openFileStep (V := Nat) (fun x => x) (("a.ts").toList) ⟨true, 4, [], []⟩ =
      .ok (⟨true, 5, [], [("a.ts").toList]⟩,
        [Effect.writeNotification 4 (("open").toList) (("a.ts").toList)]) ∧
    openFileStep (V := Nat) (fun x => x) (("a.ts").toList)
        ⟨true, 5, [], [("a.ts").toList]⟩ =
      .ok (⟨true, 5, [], [("a.ts").toList]⟩, []) ∧
    closeFileStep (V := Nat) (fun x => x) (("a.ts").toList)
        ⟨true, 5, [], [("a.ts").toList]⟩ =
      .ok (⟨true, 6, [], []⟩,
        [Effect.writeNotification 5 (("close").toList) (("a.ts").toList)]) ∧
    closeFileStep (V := Nat) (fun x => x) (("a.ts").toList) ⟨true, 6, [], []⟩ =
      .ok (⟨true, 6, [], []⟩, []) := by
  have h1 := C6_open_close_dedup (V := Nat) (fun x => x) (("a.ts").toList)
    ⟨true, 4, [], []⟩ rfl
  have h2 := C6_open_close_dedup (V := Nat) (fun x => x) (("a.ts").toList)
    ⟨true, 5, [], [("a.ts").toList]⟩ rfl
  have h3 := C6_open_close_dedup (V := Nat) (fun x => x) (("a.ts").toList)
    ⟨true, 6, [], []⟩ rfl
  obtain ⟨ho1, ho2, -⟩ := h1.1 (by decide)
  refine ⟨ho1, ?_, ?_, h3.2.2 (by decide)⟩
  · exact ho2
  · have hcl := (h2.2.1 (by decide)).1
    rw [hcl]
    rfl

/-- C2 witness: two pending requests, their two success responses
delivered in reversed order; each caller is resolved with the body of the
response echoing its own sequence number. -/
theorem C2_response_correlation_witness :
    (deliverAll (V := Nat)
        [Msg.response 2 true none (some 7), Msg.response 1 true none (some 9)]
        ⟨true, 5, [(1, 10), (2, 20)], []⟩).2 =
      [Effect.resolve 2 20 (some 7), Effect.resolve 1 10 (some 9)] := by
  have h := (C2_response_correlation (V := Nat)
    ⟨true, 5, [(1, 10), (2, 20)], []⟩ (by decide)).2.2
    [(2, some 7), (1, some 9)] (by decide) (by decide)
  exact h.trans (by decide)

/-- C3 witness: a well-formed concrete state; a response and a timer
expiry for a sequence number with no pending entry are both discarded as
no-ops with no continuation invoked. -/
theorem C3_pending_removed_once_witness :
    WfClient (⟨true, 5, [(1, 10)], []⟩ : ClientState) ∧
    handleMessageStep (V := Nat) (Msg.response 3 true none (some 1))
      ⟨true, 5, [(1, 10)], []⟩ = (⟨true, 5, [(1, 10)], []⟩, []) ∧
    timeoutFireStep (V := Nat) 3 (("definition").toList)
      ⟨true, 5, [(1, 10)], []⟩ = (⟨true, 5, [(1, 10)], []⟩, []) := by
  have h := (C3_pending_removed_once (V := Nat)
    ⟨true, 5, [(1, 10)], []⟩ (by decide)).2.1 3 (by decide)
  exact ⟨by decide, h.1 true none (some 1), h.2.1 (("definition").toList)⟩

theorem rwrGo_ok {V : Type} (o : Nat → RRes V) (mr a s : Nat) {v : V}
    (h : o a = .ok v) : rwrGo o mr a s = (.ok v, [s], []) := by
  conv_lhs => rw [rwrGo]
  rw [h]

theorem rwrGo_err_stop {V : Type} (o : Nat → RRes V) (mr a s : Nat)
    {m : List Char} (h : o a = .err m)
    (hstop : ¬(hasSubstr debugSig m = true ∧ a < mr)) :
    rwrGo o mr a s = (.err m, [s], []) := by
  conv_lhs => rw [rwrGo]
  rw [h]
  dsimp only
  rw [dif_neg hstop]

theorem rwrGo_err_retry {V : Type} (o : Nat → RRes V) (mr a s : Nat)
    {m : List Char} (h : o a = .err m)
    (hsig : hasSubstr debugSig m = true) (hlt : a < mr) :
    rwrGo o mr a s =
      ((rwrGo o mr (a + 1) (s + 1)).1,
        s :: (rwrGo o mr (a + 1) (s + 1)).2.1,
        retryDelay a :: (rwrGo o mr (a + 1) (s + 1)).2.2) := by
  conv_lhs => rw [rwrGo]
  rw [h]
  dsimp only
  rw [dif_pos ⟨hsig, hlt⟩]

/-- A run in which all four attempts fail with the recoverable signature:
four sends with consecutively allocated sequence numbers, the three
backoff delays, and the last attempt's failure surfacing to the caller. -/
theorem rwr_all_err {V : Type} (o : Nat → RRes V) (ms : Nat → List Char)
    (h : ∀ i, i ≤ 3 → o i = .err (ms i))
    (hsig : ∀ i, i ≤ 3 → hasSubstr debugSig (ms i) = true) (s0 : Nat) :
    requestWithRetryModel o s0 =
      (.err (ms 3), [s0, s0 + 1, s0 + 2, s0 + 3],
        [retryDelay 0, retryDelay 1, retryDelay 2]) := by
  have e3 : rwrGo o 3 3 (s0 + 3) = (.err (ms 3), [s0 + 3], []) :=
    rwrGo_err_stop o 3 3 (s0 + 3) (h 3 le_rfl) (fun hc => absurd hc.2 (by omega))
  have e2 : rwrGo o 3 2 (s0 + 2) =
      (.err (ms 3), [s0 + 2, s0 + 3], [retryDelay 2]) := by
    rw [rwrGo_err_retry o 3 2 (s0 + 2) (h 2 (by omega)) (hsig 2 (by omega))
      (by omega)]
    simp only [show (2 : Nat) + 1 = 3 from rfl, show s0 + 2 + 1 = s0 + 3 from rfl]
    rw [e3]
  have e1 : rwrGo o 3 1 (s0 + 1) =
      (.err (ms 3), [s0 + 1, s0 + 2, s0 + 3], [retryDelay 1, retryDelay 2]) := by
    rw [rwrGo_err_retry o 3 1 (s0 + 1) (h 1 (by omega)) (hsig 1 (by omega))
      (by omega)]
    simp only [show (1 : Nat) + 1 = 2 from rfl, show s0 + 1 + 1 = s0 + 2 from rfl]
    rw [e2]
  have e0 : rwrGo o 3 0 s0 =
      (.err (ms 3), [s0, s0 + 1, s0 + 2, s0 + 3],
        [retryDelay 0, retryDelay 1, retryDelay 2]) := by
    rw [rwrGo_err_retry o 3 0 s0 (h 0 (by omega)) (hsig 0 (by omega)) (by omega)]
    simp only [show (0 : Nat) + 1 = 1 from rfl, show s0 + 0 + 1 = s0 + 1 from rfl]
    rw [e1]
  exact e0

/-- C4: a first failure whose message lacks the Debug Failure signature is
never retried: it propagates immediately after a single send with a single
allocated sequence number and no backoff delay. When every attempt fails
with the signature, the request is re-issued with a freshly allocated
sequence number before each of the 3 retries (4 distinct consecutive
sequence numbers in all), waiting min(1000 * 2^attempt, 5000) ms before
each retry — delays 1000, 2000, 4000 ms, strictly increasing and all
within the 5000 ms cap — and the final signature-matching failure
surfaces to the caller as the request failure. -/
theorem C4_retry_policy {V : Type} (o1 o2 : Nat → RRes V) (m : List Char)
    (ms : Nat → List Char) (s0 : Nat)
    (h1 : o1 0 = .err m) (h1b : hasSubstr debugSig m = false)
    (h2 : ∀ i, i ≤ 3 → o2 i = .err (ms i))
    (h2b : ∀ i, i ≤ 3 → hasSubstr debugSig (ms i) = true) :
    requestWithRetryModel o1 s0 = (.err m, [s0], []) ∧
    requestWithRetryModel o2 s0 =
      (.err (ms 3), [s0, s0 + 1, s0 + 2, s0 + 3],
        [retryDelay 0, retryDelay 1, retryDelay 2]) ∧
    [retryDelay 0, retryDelay 1, retryDelay 2] = [1000, 2000, 4000] ∧
    List.Chain' (· < ·) [retryDelay 0, retryDelay 1, retryDelay 2] ∧
    (∀ d ∈ [retryDelay 0, retryDelay 1, retryDelay 2], d ≤ 5000) ∧
    List.Nodup [s0, s0 + 1, s0 + 2, s0 + 3] ∧
    (∀ (o : Nat → RRes V) (a s : Nat) (m' : List Char), o a = .err m' →
      hasSubstr debugSig m' = false → rwrGo o 3 a s = (.err m', [s], [])) := by
  have hdel : [retryDelay 0, retryDelay 1, retryDelay 2] = [1000, 2000, 4000] := by
    decide
  refine ⟨?_, rwr_all_err o2 ms h2 h2b s0, hdel,
    by rw [hdel]; simp [List.chain'_cons],
    by rw [hdel]; decide, ?_, ?_⟩
  · exact rwrGo_err_stop o1 3 0 s0 h1
      (fun hc => by rw [h1b] at hc; exact absurd hc.1 (by simp))
  · simp only [List.nodup_cons, List.mem_cons, List.mem_singleton,
      List.not_mem_nil, List.nodup_nil, not_or]
    norm_num
  · intro o a s m' hoa hno
    exact rwrGo_err_stop o 3 a s hoa
      (fun hc => by rw [hno] at hc; exact absurd hc.1 (by simp))

/-- C4 witness: an outcome in which every attempt fails with the bare
signature runs four attempts with sequence numbers 10..13 and delays
1000, 2000, 4000 ms, then surfaces the failure; an outcome whose first
failure lacks the signature propagates at once with no retry. -/
theorem C4_retry_policy_witness :
    requestWithRetryModel (V := Nat) (fun _ => RRes.err debugSig) 10 =
      (RRes.err debugSig, [10, 11, 12, 13], [1000, 2000, 4000]) ∧
    requestWithRetryModel (V := Nat) (fun _ => RRes.err (("nope").toList)) 10 =
      (RRes.err (("nope").toList), [10], []) := by
  have hsd : hasSubstr debugSig debugSig = true := by decide
  have h := C4_retry_policy (V := Nat) (fun _ => RRes.err (("nope").toList))
    (fun _ => RRes.err debugSig) (("nope").toList) (fun _ => debugSig) 10
    rfl (by decide) (fun i _ => rfl) (fun i _ => hsd)
  refine ⟨?_, h.1⟩
  have h2 := h.2.1
  rw [h2]
  decide

theorem isDigitCh_digitCh (d : Nat) : isDigitCh (digitCh d) = true := by
  match d with
  | 0 | 1 | 2 | 3 | 4 | 5 | 6 | 7 | 8 => decide
  | n + 9 => exact (by decide : isDigitCh ('9') = true)

theorem digitCh_toNat {d : Nat} (h : d < 10) : (digitCh d).toNat = 48 + d := by
  interval_cases d <;> decide

theorem toDecChars_all_digits (n : Nat) :
    ∀ c ∈ toDecChars n, isDigitCh c = true := by
  have main : ∀ N n : Nat, n ≤ N → ∀ c ∈ toDecChars n, isDigitCh c = true := by
    intro N
    induction N with
    | zero =>
      intro n hn c hc
      have h0 : n = 0 := by omega
      subst h0
      rw [toDecChars] at hc
      simp only [Nat.zero_lt_succ, dif_pos, List.mem_singleton] at hc
      subst hc
      exact isDigitCh_digitCh 0
    | succ N ih =>
      intro n hn c hc
      rw [toDecChars] at hc
      by_cases h10 : n < 10
      · simp only [h10, dif_pos, List.mem_singleton] at hc
        subst hc
        exact isDigitCh_digitCh n
      · simp only [h10, dif_neg, not_false_iff, List.mem_append,
          List.mem_singleton] at hc
        rcases hc with hc | hc
        · exact ih (n / 10) (by omega) c hc
        · subst hc
          exact isDigitCh_digitCh (n % 10)
  exact main n n le_rfl

theorem toDecChars_ne_nil (n : Nat) : toDecChars n ≠ [] := by
  rw [toDecChars]
  by_cases h10 : n < 10
  · simp [h10]
  · simp [h10]

theorem digitsVal_append_one (xs : List Char) (c : Char) :
    digitsVal (xs ++ [c]) = 10 * digitsVal xs + (c.toNat - 48) := by
  unfold digitsVal
  rw [List.foldl_append]
  rfl

theorem digitsVal_toDecChars (n : Nat) : digitsVal (toDecChars n) = n := by
  have main : ∀ N n : Nat, n ≤ N → digitsVal (toDecChars n) = n := by
    intro N
    induction N with
    | zero =>
      intro n hn
      have h0 : n = 0 := by omega
      subst h0
      rw [toDecChars]
      simp only [Nat.zero_lt_succ, dif_pos]
      unfold digitsVal
      simp [digitCh_toNat (by omega : (0 : Nat) < 10)]
    | succ N ih =>
      intro n hn
      rw [toDecChars]
      by_cases h10 : n < 10
      · simp only [h10, dif_pos]
        unfold digitsVal
        simp [digitCh_toNat h10]
      · simp only [h10, dif_neg, not_false_iff]
        rw [digitsVal_append_one, ih (n / 10) (by omega),
          digitCh_toNat (by omega : n % 10 < 10)]
        omega
  exact main n n le_rfl

theorem takeDigits_digits_cons {ds : List Char}
    (hds : ∀ c ∈ ds, isDigitCh c = true) {r0 : Char} (hr0 : isDigitCh r0 = false)
    (rr : List Char) : takeDigits (ds ++ r0 :: rr) = (ds, r0 :: rr) := by
  induction ds with
  | nil => simp [takeDigits, hr0]
  | cons c cs ih =>
    have hc : isDigitCh c = true := hds c (by simp)
    have ihr := ih (fun x hx => hds x (by simp [hx]))
    simp [takeDigits, hc, ihr]

/-- A frame as the external process writes it and as handleData consumes
it: the length header declaring exactly the content's length, the blank
line separator, then the content. -/
def encodeFrame (content : List Char) : List Char :=
  headerLit ++ toDecChars content.length ++ ('\n' :: '\n' :: content)

theorem parseHeader_encodeFrame (content rest : List Char) :
    parseHeader (encodeFrame content ++ rest) =
      some (content.length,
        headerLit.length + (toDecChars content.length).length + 2) := by
  have hassoc : encodeFrame content ++ rest =
      headerLit ++ (toDecChars content.length ++ ('\n' :: '\n' :: (content ++ rest))) := by
    simp [encodeFrame]
  rw [hassoc]
  unfold parseHeader
  rw [if_pos (leadsWith_self_append headerLit _)]
  rw [List.drop_left]
  rcases hne : toDecChars content.length with _ | ⟨d, ds⟩
  · exact absurd hne (toDecChars_ne_nil content.length)
  · have htd : takeDigits ((d :: ds) ++ '\n' :: '\n' :: (content ++ rest)) =
        (d :: ds, '\n' :: '\n' :: (content ++ rest)) :=
      takeDigits_digits_cons
        (fun c hc => toDecChars_all_digits content.length c (hne ▸ hc))
        (by decide) _
    rw [htd]
    dsimp only
    have hm1 : matchSep ('\n' :: '\n' :: (content ++ rest)) = some 1 := rfl
    have hm2 : matchSep (('\n' :: '\n' :: (content ++ rest)).drop 1) = some 1 := rfl
    rw [hm1]
    dsimp only
    rw [hm2]
    have hval : digitsVal (d :: ds) = content.length := by
      rw [← hne]
      exact digitsVal_toDecChars content.length
    rw [hval]

/-- C9: a stream of correctly length-delimited frames is consumed
completely, and each frame's content is handed to the JSON parser: frames
whose content parses are delivered in order, frames whose content is
malformed (the parser fails) are logged and dropped with the buffer
position already advanced past them, and every well-formed frame after a
malformed one is still parsed and delivered — the loop never stalls or
raises on a framing or parse error, and the buffer ends empty. -/
theorem C9_malformed_frame_dropped {μ : Type} (parse : List Char → Option μ)
    (frames : List (List Char)) :
    processLoop parse ((frames.map encodeFrame).flatten) =
      (frames.filterMap parse, []) := by
  induction frames with
  | nil =>
    simp only [List.map_nil, List.flatten_nil, List.filterMap_nil]
    exact processLoop_of_none parse parseHeader_nil
  | cons c fs ih =>
    simp only [List.map_cons, List.flatten_cons, List.filterMap_cons]
    have hph := parseHeader_encodeFrame c ((fs.map encodeFrame).flatten)
    have hpre : encodeFrame c ++ (fs.map encodeFrame).flatten =
        (headerLit ++ toDecChars c.length ++ ['\n', '\n']) ++
          (c ++ (fs.map encodeFrame).flatten) := by
      simp [encodeFrame]
    have hprelen : (headerLit ++ toDecChars c.length ++ ['\n', '\n']).length =
        headerLit.length + (toDecChars c.length).length + 2 := by
      simp
      omega
    have hs : headerLit.length + (toDecChars c.length).length + 2 + c.length ≤
        (encodeFrame c ++ (fs.map encodeFrame).flatten).length := by
      rw [hpre]
      simp
      omega
    rw [processLoop_of_step parse hph hs]
    have hdrop : (encodeFrame c ++ (fs.map encodeFrame).flatten).drop
        (headerLit.length + (toDecChars c.length).length + 2) =
        c ++ (fs.map encodeFrame).flatten := by
      rw [hpre, ← hprelen, List.drop_left]
    have hcontent : ((encodeFrame c ++ (fs.map encodeFrame).flatten).drop
        (headerLit.length + (toDecChars c.length).length + 2)).take c.length = c := by
      rw [hdrop, List.take_left]
    have hpre2 : encodeFrame c ++ (fs.map encodeFrame).flatten =
        ((headerLit ++ toDecChars c.length ++ ['\n', '\n']) ++ c) ++
          (fs.map encodeFrame).flatten := by
      simp [encodeFrame, List.append_assoc]
    have hprelen2 : ((headerLit ++ toDecChars c.length ++ ['\n', '\n']) ++ c).length =
        headerLit.length + (toDecChars c.length).length + 2 + c.length := by
      simp
      omega
    have hafter : (encodeFrame c ++ (fs.map encodeFrame).flatten).drop
        (headerLit.length + (toDecChars c.length).length + 2 + c.length) =
        (fs.map encodeFrame).flatten := by
      rw [hpre2, ← hprelen2, List.drop_left]
    rw [hcontent, hafter]
    cases hp : parse c with
    | some m =>
      rw [ih]
    | none =>
      rw [ih]

/-- C10 counterexample: a signature-matching failure response produces a
rejection whose error text is the original message wrapped with added
context, not the message itself — so a signature-matching failure whose
retry ceiling has been reached does not surface with exactly the failure
text reported by the external process. -/
theorem C10_rewrite_counterexample :
    (handleMessageStep (V := Nat)
        (Msg.response 1 false (some (("Debug Failure. False expression.").toList))
          none)
        ⟨true, 2, [(1, 7)], []⟩).2 =
      [Effect.reject 1 7
        (debugWrapA ++ ("Debug Failure. False expression.").toList ++ debugWrapB)] ∧
    debugWrapA ++ ("Debug Failure. False expression.").toList ++ debugWrapB ≠
      ("Debug Failure. False expression.").toList := by
  constructor
  · decide
  · decide

/-- C10 amended: the retry loop propagates every failure that is not
retried with its error unchanged: a failure whose message lacks the
signature stops the loop at whatever attempt it occurs and surfaces as
is, any failure at the retry ceiling (the last attempt, signature or
not) surfaces as is, and a run whose four attempts all fail with the
signature surfaces the last attempt's error unchanged. The error text
built at response time carries the reported failure message as follows:
a nonempty message without the recoverable signature is carried exactly;
an absent or empty message is replaced by the fixed text Request failed;
and a signature-matching message is wrapped with added context and
contains the original text as a substring rather than being exactly it. -/
theorem C10_failure_text_propagation {V : Type} (o : Nat → RRes V)
    (ms : Nat → List Char) (t : List Char) (s0 : Nat)
    (h2 : ∀ i, i ≤ 3 → o i = .err (ms i))
    (h2b : ∀ i, i ≤ 3 → hasSubstr debugSig (ms i) = true) :
    (∀ (o' : Nat → RRes V) (a s : Nat) (m' : List Char), o' a = .err m' →
      hasSubstr debugSig m' = false → rwrGo o' 3 a s = (.err m', [s], [])) ∧
    (∀ (o' : Nat → RRes V) (s : Nat) (m' : List Char), o' 3 = .err m' →
      rwrGo o' 3 3 s = (.err m', [s], [])) ∧
    (requestWithRetryModel o s0).1 = .err (ms 3) ∧
    (∀ m' : List Char, m' ≠ [] → hasSubstr debugSig m' = false →
      errorTextFor (some m') = m') ∧
    (hasSubstr debugSig t = true →
      errorTextFor (some t) = debugWrapA ++ t ++ debugWrapB ∧
      hasSubstr t (errorTextFor (some t)) = true) ∧
    errorTextFor none = requestFailedText ∧
    errorTextFor (some []) = requestFailedText := by
  refine ⟨?_, ?_, ?_, ?_, ?_, rfl, rfl⟩
  · intro o' a s m' hoa hno
    exact rwrGo_err_stop o' 3 a s hoa
      (fun hc => by rw [hno] at hc; exact absurd hc.1 (by simp))
  · intro o' s m' hoa
    exact rwrGo_err_stop o' 3 3 s hoa (fun hc => absurd hc.2 (by omega))
  · rw [rwr_all_err o ms h2 h2b s0]
  · intro m' hm hno
    have hne : m'.isEmpty = false := by
      cases m' with
      | nil => exact absurd rfl hm
      | cons x xs => rfl
    simp [errorTextFor, hne, hno]
  · intro hsig
    have htne : t.isEmpty = false := by
      cases t with
      | nil => exact absurd hsig (by decide)
      | cons x xs => rfl
    have hw : errorTextFor (some t) = debugWrapA ++ t ++ debugWrapB := by
      simp [errorTextFor, htne, hsig]
    refine ⟨hw, ?_⟩
    rw [hw]
    exact hasSubstr_append_mid t debugWrapA debugWrapB

/-- C10 witness: a run whose four attempts all fail with the bare
signature surfaces the last error unchanged; a non-signature failure at a
later attempt and a signature failure at the retry ceiling each stop the
loop with the error unchanged; the response-time error construction keeps
a non-signature message exactly and wraps a signature message. -/
theorem C10_failure_text_propagation_witness :
    (requestWithRetryModel (V := Nat) (fun _ => RRes.err debugSig) 0).1 =
      RRes.err debugSig ∧
    rwrGo (V := Nat) (fun _ => RRes.err (("nope").toList)) 3 1 5 =
      (RRes.err (("nope").toList), [5], []) ∧
    rwrGo (V := Nat) (fun _ => RRes.err debugSig) 3 3 7 =
      (RRes.err debugSig, [7], []) ∧
    errorTextFor (some (("nope").toList)) = ("nope").toList ∧
    errorTextFor (some debugSig) = debugWrapA ++ debugSig ++ debugWrapB := by
  have hsd : hasSubstr debugSig debugSig = true := by decide
  have h := C10_failure_text_propagation (V := Nat) (fun _ => RRes.err debugSig)
    (fun _ => debugSig) debugSig 0 (fun i _ => rfl) (fun i _ => hsd)
  refine ⟨h.2.2.1, ?_, ?_, ?_, ?_⟩
  · exact h.1 (fun _ => RRes.err (("nope").toList)) 1 5 (("nope").toList) rfl
      (by decide)
  · exact h.2.1 (fun _ => RRes.err debugSig) 7 debugSig rfl
  · exact h.2.2.2.1 (("nope").toList) (by decide) (by decide)
  · exact (h.2.2.2.2.1 hsd).1
